import Mathlib

/-!
Verification development for the knowledge-retrieval subsystem of the
awsna-ai-hub repository (src/lib/qdrant.ts and the knowledge API route).

Text is modelled as `List Char`; machine strings used as identifiers
(collection names, school ids, file names) are modelled as `String`.
JavaScript numbers that only ever hold integral values (timestamps,
sizes, scores as far as ordering is concerned) are modelled as `Nat`/`Int`.
The Qdrant vector store is modelled as a list of points; its search,
scroll and delete primitives are given the documented semantics
(filter, then rank/paginate).  `Array.prototype.sort` is stable
(ES2019), so client-side sorts are modelled by a stable insertion sort.
-/

/-- JavaScript whitespace predicate (the `\s` class restricted to the
ASCII whitespace characters that can occur in the repository's data). -/
def jsWs (c : Char) : Bool :=
  c == ' ' || c == '\t' || c == '\n' || c == '\r' || c.toNat == 11 || c.toNat == 12

/-- Model of `String.prototype.trim`. -/
def jsTrim (l : List Char) : List Char :=
  ((l.dropWhile jsWs).reverse.dropWhile jsWs).reverse

/-- Sentence-terminal punctuation, the class `[.!?]` used by the chunker. -/
def isSentTerm (c : Char) : Bool :=
  c == '.' || c == '!' || c == '?'

/-- Split a character list at every character satisfying `p`, keeping empty
pieces.  `text.split(/[.!?]+/)` splits on runs of the class; splitting on
single characters instead produces extra empty pieces between adjacent
separators, and the chunker filters out every piece whose trim is empty, so
after that filter the two splits agree. -/
def splitOnPred (p : Char → Bool) : List Char → List (List Char)
  | [] => [[]]
  | c :: rest =>
    if p c then [] :: splitOnPred p rest
    else
      match splitOnPred p rest with
      | [] => [[c]]
      | s :: ss => (c :: s) :: ss

/-- Position (if any) of the last newline in a character list. -/
def lastNewlineIdx (l : List Char) : Option Nat :=
  ((List.range l.length).filter (fun i => l.get? i == some '\n')).getLast?

/-- Model of `text.split(/\n\s*\n/)`: a match begins at a newline followed by
a whitespace run that contains at least one further newline; the greedy
`\s*` with the final `\n` makes the match end at the last newline of that
run, so trailing non-newline whitespace stays with the following piece. -/
def splitParas (l : List Char) : List (List Char) :=
  go [] l
where
  go (acc : List Char) : List Char → List (List Char)
    | [] => [acc.reverse]
    | c :: rest =>
      if c == '\n' then
        let ws := rest.takeWhile jsWs
        match lastNewlineIdx ws with
        | some i => acc.reverse :: go [] (rest.drop (i + 1))
        | none => go (c :: acc) rest
      else go (c :: acc) rest
  termination_by l => l.length
  decreasing_by
    · simp only [List.length_cons]
      have h2 : (rest.drop (i + 1)).length ≤ rest.length := by
        rw [List.length_drop]; omega
      omega
    · simp only [List.length_cons]; omega
    · simp only [List.length_cons]; omega

/-- Segmentation performed by `splitTextIntoChunksOptimized` (qdrant.ts
lines 383-392): optional paragraph split, then sentence split, keeping only
pieces with a nonempty trim. -/
def segsOfCore (preserveParagraphs : Bool) (text : List Char) : List (List Char) :=
  let paras := if preserveParagraphs then splitParas text else [text]
  (paras.map (fun par =>
    (splitOnPred isSentTerm par).filter (fun s => ¬ (jsTrim s).isEmpty))).flatten

/-- Options of `splitTextIntoChunksOptimized` with the source defaults. -/
structure ChunkOpts where
  maxChunkSize : Nat := 2000
  overlap : Nat := 200
  minChunkSize : Nat := 100
  preserveParagraphs : Bool := true
deriving Repr, DecidableEq

/-- The separator `'. '` the chunker uses when appending a segment. -/
def sepDS : List Char := ['.', ' ']

/-- Position of the last occurrence of the substring `". "`, the model of
`overlapText.lastIndexOf('. ')` (qdrant.ts line 409). -/
def lastDotSpace (l : List Char) : Option Nat :=
  ((List.range l.length).filter
    (fun i => l.get? i == some '.' && l.get? (i + 1) == some ' ')).getLast?

/-- The overlap seed for the next chunk (qdrant.ts lines 407-410): the last
`overlap` characters of the flushed chunk (`slice(-overlap)`, which for
`overlap = 0` is the whole string), trimmed back past the last `'. '` when
that occurs at a positive index; `overlapTrim` is the
`lastIndexOf('. ')` trimming applied to the sliced overlap text. -/
def overlapTrim (ot : List Char) : List Char :=
  match lastDotSpace ot with
  | some i => if 0 < i then ot.drop (i + 2) else ot
  | none => ot

/-- The `overlapText` slice fed to the trim above. -/
def overlapSeed (c : List Char) (overlap : Nat) : List Char :=
  overlapTrim (if overlap = 0 then c else c.drop (c.length - overlap))

/-- `currentChunk + (currentChunk ? '. ' : '') + segment` (qdrant.ts
lines 398 and 414). -/
def chunkAppendSeg (c t : List Char) : List Char :=
  c ++ (if c.isEmpty then [] else sepDS) ++ t

/-- One iteration of the chunk-accumulation loop of
`splitTextIntoChunksOptimized` (qdrant.ts lines 396-416); the state is
(chunks so far, currentChunk). -/
def chunkStep (o : ChunkOpts) (st : List (List Char) × List Char)
    (seg : List Char) : List (List Char) × List Char :=
  if (chunkAppendSeg st.2 (jsTrim seg)).length ≤ o.maxChunkSize then
    (st.1, chunkAppendSeg st.2 (jsTrim seg))
  else if ¬ st.2.isEmpty ∧ o.minChunkSize ≤ st.2.length then
    (st.1 ++ [st.2 ++ ['.']], chunkAppendSeg (overlapSeed st.2 o.overlap) (jsTrim seg))
  else
    (st.1, chunkAppendSeg st.2 (jsTrim seg))

/-- The trailing flush of `splitTextIntoChunksOptimized` (qdrant.ts
lines 419-421). -/
def finalFlush (o : ChunkOpts) (st : List (List Char) × List Char) :
    List (List Char) :=
  if ¬ st.2.isEmpty ∧ o.minChunkSize ≤ st.2.length then st.1 ++ [st.2 ++ ['.']]
  else st.1

/-- Model of `splitTextIntoChunksOptimized` (qdrant.ts lines 365-424):
segment, fold the accumulation loop from an empty state, then flush the
final chunk when it meets `minChunkSize` (`finalFlush`, lines 419-421). -/
def splitTextIntoChunksOptimized (text : List Char) (o : ChunkOpts) :
    List (List Char) :=
  finalFlush o ((segsOfCore o.preserveParagraphs text).foldl (chunkStep o) ([], []))

example :
    splitTextIntoChunksOptimized ("a!b".data) ⟨2000, 200, 1, false⟩ =
      ["a. b.".data] := by decide

/-! ## The vector-store data model (qdrant.ts lines 9-16 and the Qdrant
point shape used by the upload path). -/

/-- The `DocumentMetadata` payload field (qdrant.ts lines 9-16).  Optional
fields model properties a stored chunk may lack; `uploadedAt` is an ISO
date string in the source, modelled by its timestamp (`Date` parsing is
monotone on valid ISO strings), with `none` for a missing/unparsable date
(`NaN`). -/
structure Metadata where
  fileName : Option String
  schoolId : Option String
  collection : Option String
  uploadedBy : Option String
  uploadedAt : Option Nat
  fileSize : Option Nat
  fileType : Option String
deriving Repr, DecidableEq

/-- The metadata object `{}` produced by the `|| {}` defaults. -/
def emptyMetadata : Metadata := ⟨none, none, none, none, none, none, none⟩

/-- Point payload as written by the upload path (qdrant.ts lines 483-488):
`text`, `metadata`, `chunkIndex`, `totalChunks`; all optional on read. -/
structure Payload where
  text : Option String
  metadata : Option Metadata
  chunkIndex : Option Nat
  totalChunks : Option Nat
deriving Repr, DecidableEq

/-- A stored point.  Ids are numeric (`Date.now() + offset`). -/
structure Point where
  id : Nat
  vector : List Int
  payload : Option Payload
deriving Repr, DecidableEq

/-- `point.payload?.metadata`. -/
def metaOf (p : Point) : Option Metadata := p.payload.bind (·.metadata)

/-- `point.payload?.metadata?.fileName`. -/
def metaFileName (p : Point) : Option String := (metaOf p).bind (·.fileName)

/-- `point.payload?.metadata?.schoolId`. -/
def metaSchoolId (p : Point) : Option String := (metaOf p).bind (·.schoolId)

/-- One `must` condition of a Qdrant filter, as built by the source:
a payload key and the value it must match. -/
structure MustCond where
  key : String
  value : String
deriving Repr, DecidableEq

/-- Qdrant match semantics for the two metadata keys the repository
indexes and filters on (qdrant.ts lines 121-129 create exactly these
keyword indexes). -/
def matchesCond (p : Point) (c : MustCond) : Bool :=
  if c.key = "metadata.fileName" then metaFileName p == some c.value
  else if c.key = "metadata.schoolId" then metaSchoolId p == some c.value
  else false

/-- A point matches a filter when it matches every `must` condition. -/
def matchesFilter (conds : List MustCond) (p : Point) : Bool :=
  conds.all (matchesCond p)

/-- Qdrant `scroll`: filter, then paginate.  The cursor is modelled as a
numeric offset into the filtered sequence. -/
def qdrantScroll (pts : List Point) (conds : List MustCond)
    (limit offset : Nat) : List Point :=
  (((pts.filter (matchesFilter conds)).drop offset).take limit)

/-- The `next_page_offset` accompanying a scroll page: the cursor of the
next page, or `none` when the page exhausts the (filtered) points. -/
def qdrantScrollNext (pts : List Point) (conds : List MustCond)
    (limit offset : Nat) : Option Nat :=
  if offset + limit < (pts.filter (matchesFilter conds)).length then
    some (offset + limit)
  else none

/-- Qdrant delete-by-filter: remove exactly the matching points. -/
def qdrantDeleteByFilter (pts : List Point) (conds : List MustCond) :
    List Point :=
  pts.filter (fun p => ! matchesFilter conds p)

/-- Qdrant delete-by-ids: remove exactly the points whose id is listed. -/
def qdrantDeleteByIds (pts : List Point) (ids : List Nat) : List Point :=
  pts.filter (fun p => ! ids.contains p.id)

/-- A scored point as returned by Qdrant `search`. -/
structure ScoredPoint where
  id : Nat
  payload : Option Payload
  score : Int
deriving Repr, DecidableEq

/-- Stable insertion of a scored point into a list sorted by descending
score: the new element passes every earlier element with a greater-or-equal
score, so ties keep arrival order (the behaviour of the stable
`Array.prototype.sort` with comparator `(a, b) => b.score - a.score`). -/
def insertScoreDesc (x : ScoredPoint) : List ScoredPoint → List ScoredPoint
  | [] => [x]
  | y :: ys => if y.score - x.score < 0 then x :: y :: ys else y :: insertScoreDesc x ys

/-- Stable sort by descending score. -/
def sortScoreDesc (l : List ScoredPoint) : List ScoredPoint :=
  l.foldl (fun acc x => insertScoreDesc x acc) []

/-- Qdrant `search`: filter, score against the query vector, return the
top `limit` by descending score.  Scoring is abstract: `scoreOf` stands
for the store's cosine similarity against the query embedding. -/
def qdrantSearch (scoreOf : Point → Int) (pts : List Point)
    (conds : List MustCond) (limit : Nat) : List ScoredPoint :=
  (sortScoreDesc ((pts.filter (matchesFilter conds)).map
    (fun p => ⟨p.id, p.payload, scoreOf p⟩))).take limit

/-! ## String helpers shared by the name-handling code. -/

/-- JavaScript string truthiness: a string is truthy iff nonempty. -/
def strTruthy (s : String) : Bool := s ≠ ""

/-- `String.prototype.startsWith`, on the character data. -/
def startsWithJS (s pat : String) : Bool := pat.data.isPrefixOf s.data

/-- `String.prototype.includes` for a single character
(`name.includes('(')` and friends). -/
def containsCharJS (s : String) (c : Char) : Bool := s.data.contains c

/-- Substring search on character lists (`String.prototype.includes`). -/
def listContainsSub (pat : List Char) : List Char → Bool
  | [] => pat.isEmpty
  | c :: rest => pat.isPrefixOf (c :: rest) || listContainsSub pat rest

/-- `String.prototype.includes` with a string argument. -/
def containsSubJS (s pat : String) : Bool := listContainsSub pat.data s.data

/-- `String.prototype.replace` with a string pattern: replace the first
occurrence only (unlike `String.replace` in Lean, which replaces all). -/
def replaceFirstL (pat rep : List Char) : List Char → List Char
  | [] => if pat.isEmpty then rep else []
  | c :: rest =>
    if pat.isPrefixOf (c :: rest) then rep ++ (c :: rest).drop pat.length
    else c :: replaceFirstL pat rep rest

/-- `String.prototype.replace` with a string pattern, on `String`. -/
def replaceFirstJS (s pat rep : String) : String :=
  ⟨replaceFirstL pat.data rep.data s.data⟩

/-- `cleanName.replace(/\s+/g, '_')`: collapse each maximal whitespace run
into a single underscore. -/
def collapseWsL : List Char → List Char
  | [] => []
  | c :: rest =>
    if jsWs c then '_' :: collapseWsL (rest.dropWhile jsWs)
    else c :: collapseWsL rest
  termination_by l => l.length
  decreasing_by
    · have := rest.dropWhile_sublist jsWs
      have h := this.length_le
      simp only [List.length_cons]; omega
    · simp only [List.length_cons]; omega

/-! ## searchKnowledge (qdrant.ts lines 181-271). -/

/-- Decoding of an admin-qualified display name, the regex match
`/^(.+)\s+\((.+)\)$/` of qdrant.ts line 204: the string ends with `)`,
and the greedy first group makes the match use the last `(` that is
immediately preceded by whitespace, has at least one character before that
whitespace, and has a nonempty inner part before the final `)`.  Returns
(collectionPart, schoolPart). -/
def parseAdminName (s : String) : Option (String × String) :=
  let d := s.data
  let n := d.length
  if d.getLast? == some ')' then
    match ((List.range n).filter (fun i =>
        decide (2 ≤ i) && decide (i + 3 ≤ n) && (d.get? i == some '(') &&
        (d.get? (i - 1)).any jsWs)).getLast? with
    | some i => some (⟨d.take (i - 1)⟩, ⟨(d.drop (i + 1)).take (n - i - 2)⟩)
    | none => none
  else none

/-- Reconstruction of the physical collection name from a display name
(qdrant.ts lines 196-209): plain names get the schoolId inserted in front;
admin names `"<collection> (<school>)"` decode to
`<school>_<collection-with-whitespace-as-underscores>`. -/
def resolveCollectionName (displayName : String) (schoolId : Option String) :
    String :=
  let sidOk := match schoolId with
    | some sid => strTruthy sid
    | none => false
  if sidOk && ! containsCharJS displayName '(' && ! containsCharJS displayName '_' then
    (schoolId.getD "") ++ "_" ++ displayName
  else if containsCharJS displayName '(' && containsCharJS displayName ')' then
    match parseAdminName displayName with
    | some (collectionPart, schoolPart) =>
        schoolPart ++ "_" ++ ⟨collapseWsL collectionPart.data⟩
    | none => displayName
  else displayName

/-- The `schoolId` filter added by `searchKnowledge` (qdrant.ts
lines 221-232) and by `listDocuments` (lines 597-606): present exactly when
a truthy schoolId was supplied. -/
def schoolConds (schoolId : Option String) : List MustCond :=
  match schoolId with
  | some sid => if strTruthy sid then [⟨"metadata.schoolId", sid⟩] else []
  | none => []

/-- The world a search call runs against: the query-embedding call
(`none` models a thrown provider error), the scoring the store applies to
a point given the query embedding, and the per-collection stores (`none`
models a missing collection / per-collection search error). -/
structure SearchWorld where
  embedQ : Option (List Int)
  score : List Int → Point → Int
  colls : String → Option (List Point)

/-- The search-result shape returned to callers (qdrant.ts lines 262-266):
`payload?.text || ''`, `payload?.metadata || {}`, and the score. -/
structure SearchResult where
  text : String
  metadata : Metadata
  score : Int
deriving Repr, DecidableEq

/-- `{text: payload?.text || '', metadata: payload?.metadata || {}, score}`. -/
def toSearchResult (sp : ScoredPoint) : SearchResult :=
  ⟨(sp.payload.bind (·.text)).getD "", (sp.payload.bind (·.metadata)).getD emptyMetadata,
    sp.score⟩

/-- The `strategy` parameter of `searchKnowledge` (qdrant.ts line 186).
For `hybrid` and `exact` the source sets `searchParams.query_filter`
(lines 235-247), but the Qdrant search request has no `query_filter`
field (the store-side filter parameter is `filter`, already used for the
tenant scope), so the extra lexical constraint never reaches the store
and all three strategies issue the identical search. -/
inductive SearchStrategy where
  | hybrid
  | semantic
  | exact
deriving Repr, DecidableEq

/-- The pool accumulated by the per-collection loop (qdrant.ts
lines 193-255) for a given query embedding: each collection resolves to a
physical name; a missing/erroring collection is skipped, the rest
contribute their per-collection search results in order.  The strategy is
accepted and has no further effect (see `SearchStrategy`). -/
def searchPool (w : SearchWorld) (qv : List Int) (collectionNames : List String)
    (limit : Nat) (schoolId : Option String) (_strategy : SearchStrategy) :
    List ScoredPoint :=
  collectionNames.foldl (fun acc dn =>
    match w.colls (resolveCollectionName dn schoolId) with
    | none => acc
    | some pts => acc ++ qdrantSearch (w.score qv) pts (schoolConds schoolId) limit) []

/-- Model of `searchKnowledge` (qdrant.ts lines 181-271): embed the query
(empty result on failure), pool the per-collection searches, sort the pool
by descending score, truncate to `limit`, and map to result records. -/
def searchKnowledge (w : SearchWorld) (collectionNames : List String)
    (limit : Nat) (schoolId : Option String) (strategy : SearchStrategy) :
    List SearchResult :=
  match w.embedQ with
  | none => []
  | some qv =>
    ((sortScoreDesc (searchPool w qv collectionNames limit schoolId strategy)).take
      limit).map toSearchResult

/-- JavaScript `try`/`catch` over the error monad. -/
def jsTry {ε α : Type} (x : Except ε α) (handler : ε → Except ε α) : Except ε α :=
  match x with
  | .ok a => .ok a
  | .error e => handler e

/-- `generateEmbedding` as a fallible call (qdrant.ts lines 147-172):
propagates the provider error. -/
def generateEmbeddingE (w : SearchWorld) : Except Unit (List Int) :=
  match w.embedQ with
  | some v => .ok v
  | none => .error ()

/-- `client.search` as a fallible call: a missing collection (or any
store-side failure) is an error. -/
def clientSearchE (w : SearchWorld) (qv : List Int) (name : String)
    (conds : List MustCond) (limit : Nat) : Except Unit (List ScoredPoint) :=
  match w.colls name with
  | some pts => .ok (qdrantSearch (w.score qv) pts conds limit)
  | none => .error ()

/-- The per-collection body of the search loop with its `try`/`catch`
(qdrant.ts lines 213-254): on success the page is appended to the pool,
on failure the pool is left as it was. -/
def searchCollStepE (w : SearchWorld) (qv : List Int) (limit : Nat)
    (schoolId : Option String) (acc : List ScoredPoint) (dn : String) :
    Except Unit (List ScoredPoint) :=
  jsTry
    (do
      let res ← clientSearchE w qv (resolveCollectionName dn schoolId)
        (schoolConds schoolId) limit
      pure (acc ++ res))
    (fun _ => pure acc)

/-- Model of `searchKnowledge` with its `try`/`catch` structure made
explicit (qdrant.ts lines 188-270): the per-collection `try` skips a
failing collection, the outer `try` returns `[]` on any other failure. -/
def searchKnowledgeE (w : SearchWorld) (collectionNames : List String)
    (limit : Nat) (schoolId : Option String) (_strategy : SearchStrategy) :
    Except Unit (List SearchResult) :=
  jsTry
    (do
      let qv ← generateEmbeddingE w
      let pool ← collectionNames.foldlM (searchCollStepE w qv limit schoolId) []
      pure (((sortScoreDesc pool).take limit).map toSearchResult))
    (fun _ => pure [])

/-! ## listDocuments (qdrant.ts lines 587-681). -/

/-- A grouped per-document record (qdrant.ts lines 627-653). -/
structure DocEntry where
  fileName : String
  metadata : Metadata
  chunkCount : Nat
  totalChunks : Nat
  uploadedAt : Option Nat
  fileSize : Option Nat
  fileType : Option String
  uploadedBy : Option String
  preview : String
deriving Repr, DecidableEq

/-- The preview field (qdrant.ts lines 637-652): placeholder when the
payload text is not a string; binary placeholder when the file type says
pdf/image, the text starts with `%PDF`, or the first character is outside
printable ASCII (the regex `/^[^\x20-\x7E]+/`); otherwise the first 200
characters plus an ellipsis. -/
def previewOf (t : Option String) (md : Metadata) : String :=
  match t with
  | none => "(No preview available)"
  | some text =>
    let ftBinary := match md.fileType with
      | some ft => containsSubJS ft.toLower "pdf" || containsSubJS ft.toLower "image"
      | none => false
    let firstNonPrintable := match text.data with
      | c :: _ => decide (c.toNat < 32 ∨ 126 < c.toNat)
      | [] => false
    if ftBinary || startsWithJS text "%PDF" || firstNonPrintable then
      "(Binary file - no preview)"
    else ⟨text.data.take 200⟩ ++ "..."

/-- `point.payload?.totalChunks || 1` (qdrant.ts line 631). -/
def totalChunksOf (p : Point) : Nat :=
  match p.payload.bind (·.totalChunks) with
  | some t => if t = 0 then 1 else t
  | none => 1

/-- The document entry created for the first chunk seen for a file name
(qdrant.ts lines 627-653). -/
def mkDocEntry (fn : String) (md : Metadata) (p : Point) : DocEntry :=
  ⟨fn, md, 1, totalChunksOf p, md.uploadedAt, md.fileSize, md.fileType,
    md.uploadedBy, previewOf (p.payload.bind (·.text)) md⟩

/-- Grouping of scanned chunks by file name (qdrant.ts lines 618-662):
a JavaScript `Map` keyed by fileName and iterated in insertion order is
modelled by an ordered list of entries; a chunk with a falsy fileName is
skipped; later chunks of a known file only bump its `chunkCount`. -/
def groupByFileName (pts : List Point) : List DocEntry :=
  pts.foldl (fun acc p =>
    let md := (metaOf p).getD emptyMetadata
    match md.fileName with
    | some fn =>
      if strTruthy fn then
        if acc.any (fun d => d.fileName = fn) then
          acc.map (fun d =>
            if d.fileName = fn then { d with chunkCount := d.chunkCount + 1 } else d)
        else acc ++ [mkDocEntry fn md p]
      else acc
    | none => acc) []

/-- The comparator `new Date(b.uploadedAt).getTime() - new Date(a.uploadedAt).getTime()`
(qdrant.ts lines 665-667): a `NaN` comparator result is treated as 0 by
`Array.prototype.sort`, so a missing/unparsable date compares as equal. -/
def docDateCmp (a b : DocEntry) : Int :=
  match b.uploadedAt, a.uploadedAt with
  | some tb, some ta => (tb : Int) - (ta : Int)
  | _, _ => 0

/-- Stable insertion (the stable `Array.prototype.sort`) for the
newest-first document order. -/
def insertDocByDate (x : DocEntry) : List DocEntry → List DocEntry
  | [] => [x]
  | y :: ys => if docDateCmp x y < 0 then x :: y :: ys else y :: insertDocByDate x ys

/-- Stable sort of grouped documents by upload date, newest first. -/
def sortDocsByDate (l : List DocEntry) : List DocEntry :=
  l.foldl (fun acc x => insertDocByDate x acc) []

/-- The record `listDocuments` returns (qdrant.ts lines 672-676). -/
structure ListDocsResult where
  documents : List DocEntry
  nextOffset : Option Nat
  totalDocuments : Nat
deriving Repr, DecidableEq

/-- Model of `listDocuments` (qdrant.ts lines 587-681): scroll (the given
`offset` is passed to the chunk-level scroll, limit 10000), group by file
name, sort newest first, then `slice(0, limit)`; `nextOffset` is
`offset + limit` when more grouped documents than `limit` were found. -/
def listDocuments (pts : List Point) (schoolId : Option String)
    (limit offset : Nat) : ListDocsResult :=
  let scrolled := qdrantScroll pts (schoolConds schoolId) 10000 offset
  let documents := sortDocsByDate (groupByFileName scrolled)
  ⟨documents.take limit,
    if limit < documents.length then some (offset + limit) else none,
    documents.length⟩

/-! ## Deletion (qdrant.ts lines 713-830). -/

/-- The `must` conditions built by `deleteDocumentByFileName`
(qdrant.ts lines 724-741): always the fileName condition, plus the
schoolId condition when a schoolId is given. -/
def deleteConds (fileName : String) (schoolId : Option String) : List MustCond :=
  [⟨"metadata.fileName", fileName⟩] ++
    (match schoolId with
     | some sid => [⟨"metadata.schoolId", sid⟩]
     | none => [])

/-- Primary path of `deleteDocumentByFileName` (qdrant.ts lines 713-752):
a single store-side delete by filter; returns the resulting store. -/
def deleteDocumentByFileName (pts : List Point) (fileName : String)
    (schoolId : Option String) : List Point :=
  qdrantDeleteByFilter pts (deleteConds fileName schoolId)

/-- The scroll loop of the client-side fallback (qdrant.ts lines 775-789):
pages of 1000 points are accumulated until `next_page_offset` is null.
`fuel` bounds the recursion; `pts.length + 1` pages always suffice. -/
def scrollAllGo (pts : List Point) (fuel offset : Nat) : List Point :=
  match fuel with
  | 0 => []
  | fuel' + 1 =>
    let page := qdrantScroll pts [] 1000 offset
    match qdrantScrollNext pts [] 1000 offset with
    | some next => page ++ scrollAllGo pts fuel' next
    | none => page

/-- All points gathered by the fallback's scroll loop. -/
def scrollAll (pts : List Point) : List Point :=
  scrollAllGo pts (pts.length + 1) 0

/-- The client-side match of the fallback (qdrant.ts lines 794-802):
require metadata, an exact fileName match, and an exact schoolId match
when a schoolId was given. -/
def clientSideMatch (fileName : String) (schoolId : Option String)
    (p : Point) : Bool :=
  match metaOf p with
  | none => false
  | some md =>
    (md.fileName == some fileName) &&
      (match schoolId with
       | some sid => md.schoolId == some sid
       | none => true)

/-- Splitting a list into batches of `n` (the id batches of 100 of the
loop `for (let i = 0; i < pointIds.length; i += batchSize)`, qdrant.ts
lines 814-822; the source's batch size is the positive literal 100, and
for positive `n` the recursion below consumes exactly `n` elements per
batch). -/
def batchesOf (n : Nat) : List α → List (List α)
  | [] => []
  | x :: xs => (x :: xs).take n :: batchesOf n (xs.drop (n - 1))
  termination_by l => l.length
  decreasing_by
    simp only [List.length_cons, List.length_drop]
    omega

/-- Fallback path `deleteDocumentByFileNameClientSide` (qdrant.ts
lines 765-830): scroll everything, filter client-side, and delete the
matching ids in batches of 100 (no delete call when nothing matches);
returns the resulting store. -/
def deleteDocumentByFileNameClientSide (pts : List Point) (fileName : String)
    (schoolId : Option String) : List Point :=
  let allPoints := scrollAll pts
  let matchingPoints := allPoints.filter (clientSideMatch fileName schoolId)
  if matchingPoints.isEmpty then pts
  else
    let pointIds := matchingPoints.map (·.id)
    (batchesOf 100 pointIds).foldl (fun st batch => qdrantDeleteByIds st batch) pts

/-! ## Optimized upload (qdrant.ts lines 436-512). -/

/-- JavaScript `array.map((element, index) => ...)`. -/
def jsMapIdx (f : Nat → α → β) : Nat → List α → List β
  | _, [] => []
  | i, a :: as => f i a :: jsMapIdx f (i + 1) as

/-- The points built for one batch (qdrant.ts lines 480-489):
`id: Date.now() + batchStart + index`, the batch embedding at the same
index, and the payload carrying chunk text, metadata and position.
`clock k` is the `Date.now()` value read while building the point of
global chunk index `k`; `embedBatch` stands for `generateEmbeddingsBatch`. -/
def batchPoints (clock : Nat → Nat) (embedBatch : List (List Char) → List (List Int))
    (md : Metadata) (totalChunks batchStart : Nat) (batchChunks : List (List Char)) :
    List Point :=
  let embeddings := embedBatch batchChunks
  jsMapIdx (fun index chunk =>
    ⟨clock (batchStart + index) + batchStart + index,
      (embeddings.get? index).getD [],
      some ⟨some ⟨chunk⟩, some md, some (batchStart + index), some totalChunks⟩⟩) 0 batchChunks

/-- The batch loop of `uploadDocumentToQdrantOptimized` (qdrant.ts
lines 470-504), producing the list of upserted points in order.  `fuel`
bounds the recursion; for a positive batch size, `remaining.length`
batches always suffice. -/
def uploadGo (clock : Nat → Nat) (embedBatch : List (List Char) → List (List Int))
    (md : Metadata) (totalChunks batchSize : Nat) :
    Nat → Nat → List (List Char) → List Point
  | _, _, [] => []
  | 0, _, _ :: _ => []
  | fuel + 1, batchStart, c :: cs =>
    batchPoints clock embedBatch md totalChunks batchStart ((c :: cs).take batchSize) ++
      uploadGo clock embedBatch md totalChunks batchSize fuel (batchStart + batchSize)
        ((c :: cs).drop batchSize)

/-- The full list of points `uploadDocumentToQdrantOptimized` upserts for
a document (qdrant.ts lines 449-504): chunk, then process in batches. -/
def uploadPoints (clock : Nat → Nat) (embedBatch : List (List Char) → List (List Int))
    (content : List Char) (md : Metadata) (o : ChunkOpts) (batchSize : Nat) :
    List Point :=
  let chunks := splitTextIntoChunksOptimized content o
  uploadGo clock embedBatch md chunks.length batchSize chunks.length 0 chunks

/-! ## Collection naming (qdrant.ts lines 22-65, cluster-config.ts) and
display filtering (the knowledge-collections API route). -/

/-- `SCHOOL_CLUSTER_MAPPING` (cluster-config.ts): the static school-to-
cluster table, empty in the source. -/
def SCHOOL_CLUSTER_MAPPING : List (String × String) := []

/-- `getClusterForSchool` (cluster-config.ts): the mapped cluster name, or
`"default"`. -/
def getClusterForSchool (schoolId : String) : String :=
  ((SCHOOL_CLUSTER_MAPPING.find? (fun m => m.1 = schoolId)).map (·.2)).getD "default"

/-- `QdrantClusterManager.getCollectionName` (qdrant.ts lines 60-64):
`clusterName || (schoolId ? getClusterForSchool(schoolId) : 'default')`,
then `` `${cluster}_${schoolId}_${collection}` ``. -/
def getCollectionName (schoolId collection : String)
    (clusterName : Option String) : String :=
  let cluster :=
    match clusterName with
    | some c => if strTruthy c then c else
        (if strTruthy schoolId then getClusterForSchool schoolId else "default")
    | none => if strTruthy schoolId then getClusterForSchool schoolId else "default"
  cluster ++ "_" ++ schoolId ++ "_" ++ collection

/-- `collection.split('_')`, keeping empty pieces. -/
def splitUnderscore (s : String) : List String :=
  (splitOnPred (fun c => c == '_') s.data).map (fun l => ⟨l⟩)

/-- `parts.join('_')`. -/
def joinUnderscore (parts : List String) : String :=
  ⟨List.intercalate ['_'] (parts.map (·.data))⟩

/-- The per-collection body of `filterCollectionsForSchool` (route.ts
lines 30-63): returns the display name and whether it is included. -/
def filterCollectionsForSchoolStep (schoolId : Option String) (isAdmin : Bool)
    (collection : String) : String × Bool :=
  if startsWithJS collection "awsna_" then
    (replaceFirstJS collection "awsna_" "", true)
  else
    let sidMatch := match schoolId with
      | some sid => strTruthy sid && startsWithJS collection (sid ++ "_")
      | none => false
    if sidMatch then
      (replaceFirstJS collection ((schoolId.getD "") ++ "_") "", true)
    else if isAdmin then
      let parts := splitUnderscore collection
      if 2 ≤ parts.length then
        (joinUnderscore (parts.drop 1) ++ " (" ++ parts.headD "" ++ ")", true)
      else (collection, false)
    else (collection, false)

/-- Lexicographic comparison of character lists by code point, the model
of `localeCompare` for the plain ASCII names the repository uses. -/
def lexCmpL : List Char → List Char → Int
  | [], [] => 0
  | [], _ :: _ => -1
  | _ :: _, [] => 1
  | a :: as, b :: bs =>
    if a.toNat < b.toNat then -1
    else if b.toNat < a.toNat then 1
    else lexCmpL as bs

/-- The display-name comparator of the final sort (route.ts lines 67-75):
AWSNA (no parenthesis) names first, then `localeCompare`. -/
def displayNameCmp (a b : String) : Int :=
  let aS := containsCharJS a '('
  let bS := containsCharJS b '('
  if ¬ aS ∧ bS then -1
  else if aS ∧ ¬ bS then 1
  else lexCmpL a.data b.data

/-- Stable insertion for the display-name sort. -/
def insertDisplayName (x : String) : List String → List String
  | [] => [x]
  | y :: ys => if displayNameCmp x y < 0 then x :: y :: ys else y :: insertDisplayName x ys

/-- Model of `filterCollectionsForSchool` (route.ts lines 30-77): map each
physical collection through the three inclusion branches, dropping
duplicates in first-seen order, then the final sort. -/
def filterCollectionsForSchool (allCollections : List String)
    (schoolId : Option String) (isAdmin : Bool) : List String :=
  let filtered := allCollections.foldl (fun acc collection =>
    let r := filterCollectionsForSchoolStep schoolId isAdmin collection
    if r.2 && ! acc.contains r.1 then acc ++ [r.1] else acc) []
  filtered.foldl (fun acc x => insertDisplayName x acc) []

example :
    getCollectionName "sgws" "curriculum" none = "default_sgws_curriculum" := by decide

example :
    filterCollectionsForSchool ["default_sgws_curriculum"] (some "sgws") false = [] := by
  decide

example :
    filterCollectionsForSchool ["default_sgws_curriculum"] (some "sgws") true =
      ["sgws_curriculum (default)"] := by decide

example :
    filterCollectionsForSchool ["sgws_curriculum"] (some "sgws") false =
      ["curriculum"] := by decide

/-! ## Properties of the stable score sort. -/

theorem insertScoreDesc_perm (x : ScoredPoint) (l : List ScoredPoint) :
    (insertScoreDesc x l).Perm (x :: l) := by
  induction l with
  | nil => simp [insertScoreDesc]
  | cons y ys ih =>
    rw [insertScoreDesc]
    by_cases h : y.score - x.score < 0
    · simp [h]
    · simp only [h, if_false]
      exact (ih.cons y).trans (List.Perm.swap x y ys)

theorem insertScoreDesc_mem (x z : ScoredPoint) (l : List ScoredPoint) :
    z ∈ insertScoreDesc x l ↔ z = x ∨ z ∈ l := by
  rw [(insertScoreDesc_perm x l).mem_iff, List.mem_cons]

theorem sortScoreDesc_perm (l : List ScoredPoint) : (sortScoreDesc l).Perm l := by
  suffices h : ∀ acc : List ScoredPoint,
      (l.foldl (fun acc x => insertScoreDesc x acc) acc).Perm (acc ++ l) by
    simpa using h []
  induction l with
  | nil => intro acc; simp
  | cons y ys ih =>
    intro acc
    simp only [List.foldl_cons]
    refine (ih (insertScoreDesc y acc)).trans ?_
    have h1 : (insertScoreDesc y acc ++ ys).Perm ((y :: acc) ++ ys) :=
      (insertScoreDesc_perm y acc).append_right ys
    exact h1.trans (List.perm_middle.symm.trans (by simp))

theorem insertScoreDesc_pairwise (x : ScoredPoint) (l : List ScoredPoint)
    (h : l.Pairwise (fun a b => b.score ≤ a.score)) :
    (insertScoreDesc x l).Pairwise (fun a b => b.score ≤ a.score) := by
  induction l with
  | nil => simp [insertScoreDesc]
  | cons y ys ih =>
    rw [insertScoreDesc]
    obtain ⟨hy, hys⟩ := List.pairwise_cons.mp h
    by_cases hc : y.score - x.score < 0
    · simp only [hc, if_true]
      refine List.Pairwise.cons ?_ (List.Pairwise.cons hy hys)
      intro z hz
      rcases List.mem_cons.mp hz with hz | hz
      · subst hz; omega
      · have := hy z hz; omega
    · simp only [hc, if_false]
      refine List.Pairwise.cons ?_ (ih hys)
      intro z hz
      rcases (insertScoreDesc_mem x z ys).mp hz with hz | hz
      · subst hz; omega
      · exact hy z hz

theorem sortScoreDesc_pairwise (l : List ScoredPoint) :
    (sortScoreDesc l).Pairwise (fun a b => b.score ≤ a.score) := by
  suffices h : ∀ acc : List ScoredPoint, acc.Pairwise (fun a b => b.score ≤ a.score) →
      (l.foldl (fun acc x => insertScoreDesc x acc) acc).Pairwise
        (fun a b => b.score ≤ a.score) by
    exact h [] List.Pairwise.nil
  induction l with
  | nil => intro acc hacc; simpa using hacc
  | cons y ys ih =>
    intro acc hacc
    exact ih (insertScoreDesc y acc) (insertScoreDesc_pairwise y acc hacc)

theorem insertScoreDesc_filter_stable (x : ScoredPoint) (l : List ScoredPoint)
    (h : l.Pairwise (fun a b => b.score ≤ a.score)) (v : Int) :
    (insertScoreDesc x l).filter (fun r => r.score == v) =
      l.filter (fun r => r.score == v) ++
        (if x.score == v then [x] else []) := by
  induction l with
  | nil =>
    by_cases hx : x.score = v
    · simp [insertScoreDesc, List.filter, hx]
    · have hx' : (x.score == v) = false := by simpa using hx
      simp [insertScoreDesc, List.filter, hx']
  | cons y ys ih =>
    rw [insertScoreDesc]
    obtain ⟨hy, hys⟩ := List.pairwise_cons.mp h
    by_cases hc : y.score - x.score < 0
    · simp only [hc, if_true]
      by_cases hx : x.score = v
      · have hnone : (y :: ys).filter (fun r => r.score == v) = [] := by
          rw [List.filter_eq_nil_iff]
          intro a ha
          simp only [beq_iff_eq]
          rcases List.mem_cons.mp ha with ha | ha
          · subst ha; omega
          · have := hy a ha; omega
        have hx' : (x.score == v) = true := by simpa using hx
        rw [List.filter_cons, hnone]
        simp [hx']
      · have hx' : (x.score == v) = false := by simpa using hx
        rw [List.filter_cons]
        simp [hx']
    · simp only [hc, if_false]
      rw [List.filter_cons, List.filter_cons]
      by_cases hyv : (y.score == v) = true
      · simp only [hyv, if_true]
        rw [ih hys]
        simp
      · simp only [hyv, if_false]
        exact ih hys

theorem sortScoreDesc_filter_stable (l : List ScoredPoint) (v : Int) :
    (sortScoreDesc l).filter (fun r => r.score == v) =
      l.filter (fun r => r.score == v) := by
  suffices h : ∀ acc : List ScoredPoint, acc.Pairwise (fun a b => b.score ≤ a.score) →
      (l.foldl (fun acc x => insertScoreDesc x acc) acc).filter (fun r => r.score == v) =
        acc.filter (fun r => r.score == v) ++ l.filter (fun r => r.score == v) by
    simpa using h [] List.Pairwise.nil
  induction l with
  | nil => intro acc _; simp
  | cons y ys ih =>
    intro acc hacc
    simp only [List.foldl_cons]
    rw [ih (insertScoreDesc y acc) (insertScoreDesc_pairwise y acc hacc),
      insertScoreDesc_filter_stable y acc hacc v, List.filter_cons]
    by_cases hyv : (y.score == v) = true
    · simp [hyv]
    · simp only [hyv, if_false]
      simp only [Bool.not_eq_true] at hyv
      simp [hyv]

/-- C8: for every query world, collection list, limit, tenant scope and
strategy, `searchKnowledge` returns at most `limit` results, ordered by
descending score, and the client-side sort of the pooled per-collection
results is stable: for every score value, the results carrying that score
appear in exactly their original per-collection arrival order. -/
theorem c8_search_ranking (w : SearchWorld) (collectionNames : List String)
    (limit : Nat) (schoolId : Option String) (strat : SearchStrategy) :
    (searchKnowledge w collectionNames limit schoolId strat).length ≤ limit ∧
    (searchKnowledge w collectionNames limit schoolId strat).Pairwise
      (fun a b => b.score ≤ a.score) ∧
    ∀ (qv : List Int) (v : Int),
      (sortScoreDesc (searchPool w qv collectionNames limit schoolId strat)).filter
          (fun r => r.score == v) =
        (searchPool w qv collectionNames limit schoolId strat).filter
          (fun r => r.score == v) := by
  refine ⟨?_, ?_, ?_⟩
  · cases hE : w.embedQ with
    | none => simp [searchKnowledge, hE]
    | some qv =>
      simp only [searchKnowledge, hE, List.length_map, List.length_take]
      exact Nat.min_le_left _ _
  · cases hE : w.embedQ with
    | none => simp [searchKnowledge, hE]
    | some qv =>
      simp only [searchKnowledge, hE]
      refine List.pairwise_map.mpr ?_
      exact (sortScoreDesc_pairwise _).sublist (List.take_sublist _ _)
  · intro qv v
    exact sortScoreDesc_filter_stable _ v

/-! ## Deletion completeness. -/

theorem matchesFilter_deleteConds (f : String) (sid : Option String) (p : Point) :
    matchesFilter (deleteConds f sid) p =
      ((metaFileName p == some f) &&
        match sid with
        | some A => metaSchoolId p == some A
        | none => true) := by
  cases sid with
  | none => simp [matchesFilter, deleteConds, matchesCond]
  | some A => simp [matchesFilter, deleteConds, matchesCond]

/-- C2: after the primary filtered delete of `deleteDocumentByFileName`
scoped to a tenant, a subsequent scroll filtered by that fileName and
tenant returns zero chunks, and the store is left exactly as the original
minus the chunks matching both the fileName and the tenant (all other
chunks survive unchanged, in order). -/
theorem c2_delete_by_filename_complete (pts : List Point) (f A : String)
    (lim off : Nat) :
    qdrantScroll (deleteDocumentByFileName pts f (some A))
      (deleteConds f (some A)) lim off = [] ∧
    deleteDocumentByFileName pts f (some A) =
      pts.filter
        (fun p => !(metaFileName p == some f && metaSchoolId p == some A)) := by
  constructor
  · unfold qdrantScroll deleteDocumentByFileName qdrantDeleteByFilter
    rw [List.filter_filter]
    have h : pts.filter
        (fun a => matchesFilter (deleteConds f (some A)) a &&
          ! matchesFilter (deleteConds f (some A)) a) = [] := by
      rw [List.filter_eq_nil_iff]
      intro a _
      cases hm : matchesFilter (deleteConds f (some A)) a <;> simp [hm]
    rw [h]
    simp
  · unfold deleteDocumentByFileName qdrantDeleteByFilter
    refine List.filter_congr ?_
    intro p _
    rw [matchesFilter_deleteConds]

/-! ## Pagination of listDocuments: concrete evaluation. -/

/-- A store holding two logical documents: `a.txt` with two chunks
(uploaded at time 2) and `b.txt` with one chunk (uploaded at time 1). -/
def c4Store : List Point :=
  [⟨1, [], some ⟨some "alpha one", some ⟨some "a.txt", none, none, none, some 2, none, none⟩,
      some 0, some 2⟩⟩,
   ⟨2, [], some ⟨some "alpha two", some ⟨some "a.txt", none, none, none, some 2, none, none⟩,
      some 1, some 2⟩⟩,
   ⟨3, [], some ⟨some "beta one", some ⟨some "b.txt", none, none, none, some 1, none, none⟩,
      some 0, some 1⟩⟩]

/-- C4 fails on the code: with two documents present, page one
(`limit = 1, offset = 0`) and page two (`limit = 1, offset = 1`) both
return `a.txt` (the `offset` is consumed by the raw chunk scroll, and the
grouped list is sliced from index 0), so the two pages are not distinct
documents; `nextOffset = 1` was produced in grouped-document units. -/
theorem c4_pagination_counterexample :
    (listDocuments c4Store none 1 0).documents.map (·.fileName) = ["a.txt"] ∧
    (listDocuments c4Store none 1 1).documents.map (·.fileName) = ["a.txt"] ∧
    (listDocuments c4Store none 1 0).nextOffset = some 1 ∧
    (listDocuments c4Store none 1 0).totalDocuments = 2 := by
  decide

/-! ## Round-trip naming. -/

theorem isPrefixOf_append_self (x y : List Char) : x.isPrefixOf (x ++ y) = true := by
  induction x with
  | nil => simp [List.isPrefixOf]
  | cons a as ih => simp [List.isPrefixOf, ih]

theorem replaceFirstL_of_isPrefixOf (pat rep l : List Char)
    (h : pat.isPrefixOf l = true) :
    replaceFirstL pat rep l = rep ++ l.drop pat.length := by
  cases l with
  | nil =>
    cases pat with
    | nil => simp [replaceFirstL]
    | cons a as => simp [List.isPrefixOf] at h
  | cons c rest =>
    rw [replaceFirstL]
    simp [h]

theorem startsWithJS_append (t c : String) :
    startsWithJS (t ++ c) t = true := by
  unfold startsWithJS
  rw [String.data_append]
  exact isPrefixOf_append_self _ _

theorem replaceFirstJS_strip (pre c : String) :
    replaceFirstJS (pre ++ c) pre "" = c := by
  unfold replaceFirstJS
  rw [replaceFirstL_of_isPrefixOf _ _ _
    (by rw [String.data_append]; exact isPrefixOf_append_self _ _)]
  rw [String.data_append, List.nil_append, List.drop_left]

/-- C5 fails on the code: `getCollectionName` produces the three-component
name `default_sgws_curriculum` for tenant `sgws`, collection `curriculum`
(no cluster override), but the display parser scoped to `sgws` drops that
name entirely for a non-admin and renders it as
`"sgws_curriculum (default)"` for an admin — neither parse yields back
`(sgws, curriculum)`. -/
theorem c5_roundtrip_counterexample :
    getCollectionName "sgws" "curriculum" none = "default_sgws_curriculum" ∧
    filterCollectionsForSchool ["default_sgws_curriculum"] (some "sgws") false = [] ∧
    filterCollectionsForSchool ["default_sgws_curriculum"] (some "sgws") true =
      ["sgws_curriculum (default)"] := by
  decide

/-- C5 amended: the round trip holds for the two-component physical names
`tenant_collection` the repository actually stores and searches with
(knowledgeApi.ts builds `` `${schoolId}_${collection}` `` at upload).
The tenant must be nonempty (a falsy schoolId disables both paths), and —
unless the tenant is `awsna` itself — the name must not begin with the
global `awsna_` marker, which is stripped with higher priority; under
these provisos, filtering the physical name for the tenant's display
yields back exactly the collection.  The reverse direction holds only for
plain display names: `searchKnowledge`'s name reconstruction prepends the
tenant exactly when the display name contains neither `'('` nor `'_'`
(qdrant.ts line 199); a name containing an underscore, such as the
repository's own `org_content`, is passed through unchanged, and a
parenthesised name is decoded as an admin-qualified name instead. -/
theorem c5_roundtrip_amended (t c : String) (ht : strTruthy t = true)
    (hp : t = "awsna" ∨ startsWithJS (t ++ "_" ++ c) "awsna_" = false) :
    filterCollectionsForSchool [t ++ "_" ++ c] (some t) false = [c] ∧
    (containsCharJS c '(' = false → containsCharJS c '_' = false →
      resolveCollectionName c (some t) = t ++ "_" ++ c) ∧
    (containsCharJS c '_' = true → containsCharJS c '(' = false →
      resolveCollectionName c (some t) = c) := by
  have hstep : filterCollectionsForSchoolStep (some t) false (t ++ "_" ++ c) =
      (c, true) := by
    rcases hp with hp | hp
    · subst hp
      have hpre : ("awsna" ++ "_" ++ c) = "awsna_" ++ c := by
        have h1 : ("awsna" ++ "_") = "awsna_" := by decide
        rw [h1]
      unfold filterCollectionsForSchoolStep
      rw [hpre, startsWithJS_append, replaceFirstJS_strip]
      simp
    · unfold filterCollectionsForSchoolStep
      rw [hp]
      have hsw : startsWithJS (t ++ "_" ++ c) (t ++ "_") = true :=
        startsWithJS_append (t ++ "_") c
      simp only [Bool.false_eq_true, if_false, ht, hsw, Bool.and_self, if_true,
        Option.getD_some]
      rw [replaceFirstJS_strip (t ++ "_") c]
  refine ⟨?_, ?_, ?_⟩
  · unfold filterCollectionsForSchool
    rw [List.foldl_cons, hstep]
    simp [insertDisplayName]
  · intro hc1 hc2
    unfold resolveCollectionName
    simp [ht, hc1, hc2]
  · intro hu hc1
    unfold resolveCollectionName
    simp [ht, hu, hc1]

theorem c5_roundtrip_amended_witness :
    strTruthy "sgws" = true ∧
    filterCollectionsForSchool ["sgws_curriculum"] (some "sgws") false =
      ["curriculum"] ∧
    resolveCollectionName "curriculum" (some "sgws") = "sgws_curriculum" ∧
    resolveCollectionName "org_content" (some "sgws") = "org_content" := by
  have h := c5_roundtrip_amended "sgws" "curriculum" (by decide)
    (Or.inr (by decide))
  have e : ("sgws" ++ "_" ++ "curriculum") = "sgws_curriculum" := by decide
  rw [e] at h
  have h2 := c5_roundtrip_amended "sgws" "org_content" (by decide)
    (Or.inr (by decide))
  exact ⟨by decide, h.1, h.2.1 (by decide) (by decide),
    h2.2.2 (by decide) (by decide)⟩

/-! ## Uniqueness of uploaded point ids. -/

theorem range'_append_nat (s n m : Nat) :
    List.range' s n ++ List.range' (s + n) m = List.range' s (n + m) := by
  have h := List.range'_append s n m 1
  simp only [Nat.one_mul] at h
  rw [h, Nat.add_comm]

theorem jsMapIdx_map (g : β → γ) (f : Nat → α → β) :
    ∀ (j : Nat) (l : List α), (jsMapIdx f j l).map g = jsMapIdx (fun i a => g (f i a)) j l := by
  intro j l
  induction l generalizing j with
  | nil => simp [jsMapIdx]
  | cons a as ih => simp [jsMapIdx, ih]

theorem jsMapIdx_const (h : Nat → β) :
    ∀ (j : Nat) (l : List α), jsMapIdx (fun i _ => h i) j l = (List.range' j l.length).map h := by
  intro j l
  induction l generalizing j with
  | nil => simp [jsMapIdx]
  | cons a as ih => simp [jsMapIdx, ih, List.range'_succ]

theorem range'_map_shift (G : Nat → Nat) (s n : Nat) :
    (List.range' 0 n).map (fun i => G (s + i)) = (List.range' s n).map G := by
  rw [List.range'_eq_map_range, List.range'_eq_map_range, List.map_map, List.map_map]
  simp

theorem batchPoints_ids (clock : Nat → Nat)
    (emb : List (List Char) → List (List Int)) (md : Metadata)
    (tc : Nat) (bc : List (List Char)) (s : Nat) :
    (batchPoints clock emb md tc s bc).map (·.id) =
      (List.range' s bc.length).map (fun k => clock k + k) := by
  unfold batchPoints
  rw [jsMapIdx_map]
  have h1 : (fun (i : Nat) (a : List Char) =>
      (Point.mk (clock (s + i) + s + i) (((emb bc).get? i).getD [])
        (some ⟨some ⟨a⟩, some md, some (s + i), some tc⟩)).id) =
      (fun (i : Nat) (_ : List Char) => clock (s + i) + (s + i)) := by
    funext i a
    simp [Nat.add_assoc]
  rw [h1, jsMapIdx_const (fun i => clock (s + i) + (s + i)) 0 bc,
    range'_map_shift (fun k => clock k + k) s bc.length]

theorem uploadGo_ids (clock : Nat → Nat)
    (emb : List (List Char) → List (List Int)) (md : Metadata)
    (tc bs : Nat) (hbs : 1 ≤ bs) :
    ∀ (fuel : Nat) (remaining : List (List Char)) (s : Nat),
      remaining.length ≤ fuel →
      (uploadGo clock emb md tc bs fuel s remaining).map (·.id) =
        (List.range' s remaining.length).map (fun k => clock k + k) := by
  intro fuel
  induction fuel with
  | zero =>
    intro remaining s hlen
    have : remaining = [] := List.length_eq_zero.mp (Nat.le_zero.mp hlen)
    subst this
    simp [uploadGo]
  | succ fuel ih =>
    intro remaining s hlen
    cases remaining with
    | nil => simp [uploadGo]
    | cons c cs =>
      rw [uploadGo, List.map_append, batchPoints_ids]
      have hdlen : ((c :: cs).drop bs).length = (c :: cs).length - bs := by
        rw [List.length_drop]
      rw [ih ((c :: cs).drop bs) (s + bs) (by simp at hlen ⊢; omega)]
      rw [List.length_take, hdlen]
      by_cases hle : (c :: cs).length ≤ bs
      · have hmin : min bs (c :: cs).length = (c :: cs).length :=
          Nat.min_eq_right hle
        have hz : (c :: cs).length - bs = 0 := Nat.sub_eq_zero_of_le hle
        rw [hmin, hz]
        simp
      · push_neg at hle
        have hmin : min bs (c :: cs).length = bs :=
          Nat.min_eq_left (Nat.le_of_lt hle)
        rw [hmin, ← List.map_append, range'_append_nat,
          Nat.add_sub_cancel' (Nat.le_of_lt hle)]

/-- C10: within a single `uploadDocumentToQdrantOptimized` call, provided
the `Date.now()` values read while building successive points never
decrease, the generated point ids (`Date.now() + batchStart + index`) are
strictly increasing in chunk order — each batch's offsets start past the
largest offset of the previous batch — and hence pairwise distinct. -/
theorem c10_upload_ids_strictly_increasing (clock : Nat → Nat)
    (emb : List (List Char) → List (List Int)) (content : List Char)
    (md : Metadata) (o : ChunkOpts) (bs : Nat)
    (hmono : ∀ i j, i ≤ j → clock i ≤ clock j) (hbs : 1 ≤ bs) :
    ((uploadPoints clock emb content md o bs).map (·.id)).Pairwise (· < ·) ∧
    ((uploadPoints clock emb content md o bs).map (·.id)).Pairwise (· ≠ ·) := by
  have hids : ((uploadPoints clock emb content md o bs).map (·.id)).Pairwise (· < ·) := by
    unfold uploadPoints
    rw [uploadGo_ids clock emb md _ bs hbs _ _ 0 (Nat.le_refl _)]
    refine List.pairwise_map.mpr ?_
    refine (List.pairwise_lt_range' 0 _).imp ?_
    intro a b hab
    have := hmono a b (Nat.le_of_lt hab)
    omega
  exact ⟨hids, hids.imp Nat.ne_of_lt⟩

theorem c10_upload_ids_witness :
    (∀ i j : Nat, i ≤ j → (fun _ : Nat => 1700000000000) i ≤ (fun _ : Nat => 1700000000000) j) ∧
    (1 ≤ 1) ∧
    ((uploadPoints (fun _ => 1700000000000) (fun b => b.map (fun _ => []))
        ("aaaa. bbbb. cccc".data) emptyMetadata ⟨10, 3, 2, false⟩ 1).map (·.id)).Pairwise
      (· < ·) ∧
    (uploadPoints (fun _ => 1700000000000) (fun b => b.map (fun _ => []))
        ("aaaa. bbbb. cccc".data) emptyMetadata ⟨10, 3, 2, false⟩ 1).map (·.id) =
      [1700000000000, 1700000000001] := by
  refine ⟨fun i j _ => Nat.le_refl _, Nat.le_refl 1, ?_, by decide⟩
  exact (c10_upload_ids_strictly_increasing (fun _ => 1700000000000)
    (fun b => b.map (fun _ => [])) ("aaaa. bbbb. cccc".data) emptyMetadata
    ⟨10, 3, 2, false⟩ 1 (fun i j _ => Nat.le_refl _) (Nat.le_refl 1)).1

/-! ## Error handling of searchKnowledge. -/

theorem qdrantSearch_nil (f : Point → Int) (conds : List MustCond) (lim : Nat) :
    qdrantSearch f [] conds lim = [] := by
  simp [qdrantSearch, sortScoreDesc]

theorem searchCollStepE_ok (w : SearchWorld) (qv : List Int) (limit : Nat)
    (schoolId : Option String) (acc : List ScoredPoint) (dn : String) :
    searchCollStepE w qv limit schoolId acc dn =
      Except.ok (match w.colls (resolveCollectionName dn schoolId) with
        | none => acc
        | some pts =>
          acc ++ qdrantSearch (w.score qv) pts (schoolConds schoolId) limit) := by
  unfold searchCollStepE clientSearchE
  cases hcol : w.colls (resolveCollectionName dn schoolId) with
  | none => rfl
  | some pts => rfl

theorem searchE_foldlM_ok (w : SearchWorld) (qv : List Int) (limit : Nat)
    (schoolId : Option String) :
    ∀ (names : List String) (acc : List ScoredPoint),
      (names.foldlM (searchCollStepE w qv limit schoolId) acc :
        Except Unit (List ScoredPoint)) =
      Except.ok (names.foldl (fun acc dn =>
        match w.colls (resolveCollectionName dn schoolId) with
        | none => acc
        | some pts => acc ++ qdrantSearch (w.score qv) pts (schoolConds schoolId) limit)
        acc) := by
  intro names
  induction names with
  | nil => intro acc; rfl
  | cons dn rest ih =>
    intro acc
    rw [List.foldlM_cons, List.foldl_cons, searchCollStepE_ok]
    exact ih _

/-- C9: `searchKnowledge` never raises.  The explicit `try`/`catch` model
always returns `Except.ok` of the total model; when embedding the query
fails the result is the empty list; and a failing (e.g. absent) collection
contributes nothing — the call behaves exactly as if that collection were
present but empty, so the other collections' results are still returned. -/
theorem c9_search_never_raises (w : SearchWorld) (collectionNames : List String)
    (limit : Nat) (schoolId : Option String) (strat : SearchStrategy) :
    searchKnowledgeE w collectionNames limit schoolId strat =
      Except.ok (searchKnowledge w collectionNames limit schoolId strat) ∧
    (w.embedQ = none → searchKnowledge w collectionNames limit schoolId strat = []) ∧
    (∀ bad : String, w.colls bad = none →
      searchKnowledge w collectionNames limit schoolId strat =
        searchKnowledge ⟨w.embedQ, w.score, fun n => if n = bad then some [] else w.colls n⟩
          collectionNames limit schoolId strat) := by
  refine ⟨?_, ?_, ?_⟩
  · cases hE : w.embedQ with
    | none =>
      simp [searchKnowledgeE, searchKnowledge, generateEmbeddingE, hE, jsTry,
        Bind.bind, Except.bind, pure, Except.pure]
    | some qv =>
      unfold searchKnowledgeE searchKnowledge
      rw [hE]
      have hemb : generateEmbeddingE w = Except.ok qv := by
        simp [generateEmbeddingE, hE]
      simp only [hemb, Bind.bind, Except.bind]
      rw [searchE_foldlM_ok w qv limit schoolId collectionNames []]
      simp [jsTry, searchPool, pure, Except.pure]
  · intro hE
    simp [searchKnowledge, hE]
  · intro bad hbad
    cases hE : w.embedQ with
    | none => simp [searchKnowledge, hE]
    | some qv =>
      simp only [searchKnowledge, hE]
      have hpool : ∀ (names : List String) (acc : List ScoredPoint),
          names.foldl (fun acc dn =>
            match w.colls (resolveCollectionName dn schoolId) with
            | none => acc
            | some pts =>
              acc ++ qdrantSearch (w.score qv) pts (schoolConds schoolId) limit) acc =
          names.foldl (fun acc dn =>
            match (if resolveCollectionName dn schoolId = bad then some []
                else w.colls (resolveCollectionName dn schoolId)) with
            | none => acc
            | some pts =>
              acc ++ qdrantSearch (w.score qv) pts (schoolConds schoolId) limit) acc := by
        intro names
        induction names with
        | nil => intro acc; rfl
        | cons dn rest ih =>
          intro acc
          rw [List.foldl_cons, List.foldl_cons]
          by_cases hdn : resolveCollectionName dn schoolId = bad
          · have hl : w.colls (resolveCollectionName dn schoolId) = none := by
              rw [hdn]; exact hbad
            rw [hl, if_pos hdn]
            simp only [qdrantSearch_nil, List.append_nil]
            exact ih acc
          · rw [if_neg hdn]
            cases w.colls (resolveCollectionName dn schoolId) <;> exact ih _
      unfold searchPool
      rw [hpool collectionNames []]

theorem c9_search_never_raises_witness :
    (SearchWorld.mk none (fun _ _ => 0) (fun _ => none)).embedQ = none ∧
    searchKnowledge ⟨none, fun _ _ => 0, fun _ => none⟩ ["school-renewal"] 5
      (some "awsna") SearchStrategy.hybrid = [] ∧
    searchKnowledgeE ⟨none, fun _ _ => 0, fun _ => none⟩ ["school-renewal"] 5
      (some "awsna") SearchStrategy.hybrid = Except.ok [] := by
  have h := c9_search_never_raises ⟨none, fun _ _ => 0, fun _ => none⟩
    ["school-renewal"] 5 (some "awsna") SearchStrategy.hybrid
  have h2 := h.2.1 rfl
  exact ⟨rfl, h2, by rw [h.1, h2]⟩

/-! ## Scoped tenant isolation. -/

theorem schoolConds_some (A : String) (hA : strTruthy A = true) :
    schoolConds (some A) = [⟨"metadata.schoolId", A⟩] := by
  simp [schoolConds, hA]

theorem matchesFilter_schoolConds (A : String) (hA : strTruthy A = true) (p : Point) :
    matchesFilter (schoolConds (some A)) p = (metaSchoolId p == some A) := by
  rw [schoolConds_some A hA]
  simp [matchesFilter, matchesCond]

theorem mem_sortScoreDesc (x : ScoredPoint) (l : List ScoredPoint) :
    x ∈ sortScoreDesc l ↔ x ∈ l :=
  (sortScoreDesc_perm l).mem_iff

theorem mem_qdrantSearch (f : Point → Int) (pts : List Point)
    (conds : List MustCond) (lim : Nat) (sp : ScoredPoint)
    (h : sp ∈ qdrantSearch f pts conds lim) :
    ∃ p ∈ pts, matchesFilter conds p = true ∧ sp = ⟨p.id, p.payload, f p⟩ := by
  unfold qdrantSearch at h
  have h1 := (List.take_subset _ _) h
  rw [mem_sortScoreDesc] at h1
  obtain ⟨p, hp, rfl⟩ := List.mem_map.mp h1
  obtain ⟨hmem, hmatch⟩ := List.mem_filter.mp hp
  exact ⟨p, hmem, hmatch, rfl⟩

theorem searchPool_mem (w : SearchWorld) (qv : List Int) (names : List String)
    (limit : Nat) (sid : Option String) (strat : SearchStrategy) (sp : ScoredPoint)
    (h : sp ∈ searchPool w qv names limit sid strat) :
    ∃ pts, (∃ name, w.colls (resolveCollectionName name sid) = some pts) ∧
      sp ∈ qdrantSearch (w.score qv) pts (schoolConds sid) limit := by
  unfold searchPool at h
  suffices haux : ∀ (ns : List String) (acc : List ScoredPoint),
      sp ∈ ns.foldl (fun acc dn =>
        match w.colls (resolveCollectionName dn sid) with
        | none => acc
        | some pts => acc ++ qdrantSearch (w.score qv) pts (schoolConds sid) limit) acc →
      sp ∈ acc ∨ ∃ pts, (∃ name, w.colls (resolveCollectionName name sid) = some pts) ∧
        sp ∈ qdrantSearch (w.score qv) pts (schoolConds sid) limit by
    rcases haux names [] h with h' | h'
    · simp at h'
    · exact h'
  intro ns
  induction ns with
  | nil => intro acc h'; exact Or.inl h'
  | cons dn rest ih =>
    intro acc h'
    rw [List.foldl_cons] at h'
    cases hcol : w.colls (resolveCollectionName dn sid) with
    | none =>
      rw [hcol] at h'
      exact ih acc h'
    | some pts =>
      rw [hcol] at h'
      rcases ih _ h' with h'' | h''
      · rcases List.mem_append.mp h'' with h3 | h3
        · exact Or.inl h3
        · exact Or.inr ⟨pts, ⟨dn, hcol⟩, h3⟩
      · exact Or.inr h''

theorem metaSchoolId_getD (p : Point) (A : String) (h : metaSchoolId p = some A) :
    ((p.payload.bind (·.metadata)).getD emptyMetadata).schoolId = some A := by
  unfold metaSchoolId metaOf at h
  cases hm : p.payload.bind (·.metadata) with
  | none => rw [hm] at h; simp at h
  | some md => rw [hm] at h; simpa using h

theorem filter_matches_filter_school (pts : List Point) (conds : List MustCond)
    (A : String) (hA : strTruthy A = true) (hsub : conds = schoolConds (some A)) :
    (pts.filter (fun p => metaSchoolId p == some A)).filter (matchesFilter conds) =
      pts.filter (matchesFilter conds) := by
  rw [List.filter_filter]
  refine List.filter_congr ?_
  intro p _
  subst hsub
  rw [matchesFilter_schoolConds A hA]
  exact Bool.and_self _

theorem insertDocByDate_perm (x : DocEntry) (l : List DocEntry) :
    (insertDocByDate x l).Perm (x :: l) := by
  induction l with
  | nil => simp [insertDocByDate]
  | cons y ys ih =>
    rw [insertDocByDate]
    by_cases h : docDateCmp x y < 0
    · simp [h]
    · simp only [h, if_false]
      exact (ih.cons y).trans (List.Perm.swap x y ys)

theorem sortDocsByDate_perm (l : List DocEntry) : (sortDocsByDate l).Perm l := by
  suffices h : ∀ acc : List DocEntry,
      (l.foldl (fun acc x => insertDocByDate x acc) acc).Perm (acc ++ l) by
    simpa using h []
  induction l with
  | nil => intro acc; simp
  | cons y ys ih =>
    intro acc
    simp only [List.foldl_cons]
    refine (ih (insertDocByDate y acc)).trans ?_
    have h1 : (insertDocByDate y acc ++ ys).Perm ((y :: acc) ++ ys) :=
      (insertDocByDate_perm y acc).append_right ys
    exact h1.trans (List.perm_middle.symm.trans (by simp))

/-- C1: a search or list-documents call scoped to tenant `A` only returns
chunks whose `metadata.schoolId` is `A` (so never another tenant's), and
its results are unchanged when every chunk of any other tenant is removed
from the store. -/
theorem c1_scoped_isolation (w : SearchWorld) (names : List String)
    (limit : Nat) (A : String) (strat : SearchStrategy) (pts : List Point)
    (lim off : Nat) (hA : A ≠ "") :
    (∀ r ∈ searchKnowledge w names limit (some A) strat,
      r.metadata.schoolId = some A) ∧
    searchKnowledge
        ⟨w.embedQ, w.score,
          fun n => (w.colls n).map (List.filter (fun p => metaSchoolId p == some A))⟩
        names limit (some A) strat =
      searchKnowledge w names limit (some A) strat ∧
    (∀ d ∈ (listDocuments pts (some A) lim off).documents,
      d.metadata.schoolId = some A) ∧
    listDocuments (pts.filter (fun p => metaSchoolId p == some A)) (some A) lim off =
      listDocuments pts (some A) lim off := by
  have hA' : strTruthy A = true := by simpa [strTruthy] using hA
  refine ⟨?_, ?_, ?_, ?_⟩
  · intro r hr
    cases hE : w.embedQ with
    | none => rw [searchKnowledge, hE] at hr; simp at hr
    | some qv =>
      rw [searchKnowledge, hE] at hr
      obtain ⟨sp, hsp, rfl⟩ := List.mem_map.mp hr
      have hsp2 := (List.take_subset _ _) hsp
      rw [mem_sortScoreDesc] at hsp2
      obtain ⟨cpts, _, hq⟩ := searchPool_mem w qv names limit (some A) strat sp hsp2
      obtain ⟨p, _, hmatch, rfl⟩ := mem_qdrantSearch _ _ _ _ _ hq
      rw [matchesFilter_schoolConds A hA'] at hmatch
      have : metaSchoolId p = some A := by simpa using hmatch
      exact metaSchoolId_getD p A this
  · have hpool : ∀ (e : Option (List Int)) (qv : List Int),
        searchPool
          ⟨e, w.score,
            fun n => (w.colls n).map (List.filter (fun p => metaSchoolId p == some A))⟩
          qv names limit (some A) strat = searchPool w qv names limit (some A) strat := by
      intro e qv
      unfold searchPool
      suffices haux : ∀ (ns : List String) (acc : List ScoredPoint),
          ns.foldl (fun acc dn =>
            match (w.colls (resolveCollectionName dn (some A))).map
                (List.filter (fun p => metaSchoolId p == some A)) with
            | none => acc
            | some pts =>
              acc ++ qdrantSearch (w.score qv) pts (schoolConds (some A)) limit) acc =
          ns.foldl (fun acc dn =>
            match w.colls (resolveCollectionName dn (some A)) with
            | none => acc
            | some pts =>
              acc ++ qdrantSearch (w.score qv) pts (schoolConds (some A)) limit) acc by
        exact haux names []
      intro ns
      induction ns with
      | nil => intro acc; rfl
      | cons dn rest ih =>
        intro acc
        rw [List.foldl_cons, List.foldl_cons]
        cases hcol : w.colls (resolveCollectionName dn (some A)) with
        | none => exact ih acc
        | some cpts =>
          show List.foldl _
              (acc ++ qdrantSearch (w.score qv)
                (cpts.filter (fun p => metaSchoolId p == some A))
                (schoolConds (some A)) limit) rest = _
          have hq : qdrantSearch (w.score qv)
              (cpts.filter (fun p => metaSchoolId p == some A))
              (schoolConds (some A)) limit =
              qdrantSearch (w.score qv) cpts (schoolConds (some A)) limit := by
            unfold qdrantSearch
            rw [filter_matches_filter_school cpts _ A hA' rfl]
          rw [hq]
          exact ih _
    unfold searchKnowledge
    cases hE : w.embedQ with
    | none => rfl
    | some qv =>
      show List.map toSearchResult (List.take limit (sortScoreDesc (searchPool
          ⟨some qv, w.score,
            fun n => (w.colls n).map (List.filter (fun p => metaSchoolId p == some A))⟩
          qv names limit (some A) strat))) =
        List.map toSearchResult (List.take limit (sortScoreDesc
          (searchPool w qv names limit (some A) strat)))
      rw [hpool (some qv) qv]
  · intro d hd
    unfold listDocuments at hd
    simp only at hd
    have hd1 := (List.take_subset _ _) hd
    have hd2 : d ∈ groupByFileName (qdrantScroll pts (schoolConds (some A)) 10000 off) :=
      (sortDocsByDate_perm _).mem_iff.mp hd1
    have hscroll : ∀ p ∈ qdrantScroll pts (schoolConds (some A)) 10000 off,
        metaSchoolId p = some A := by
      intro p hp
      unfold qdrantScroll at hp
      have hp1 := (List.take_subset _ _) hp
      have hp2 := (List.drop_subset _ _) hp1
      have := (List.mem_filter.mp hp2).2
      rw [matchesFilter_schoolConds A hA'] at this
      simpa using this
    clear hd hd1
    revert hd2
    generalize qdrantScroll pts (schoolConds (some A)) 10000 off = spts at hscroll
    suffices haux : ∀ (l : List Point) (acc : List DocEntry),
        (∀ p ∈ l, metaSchoolId p = some A) →
        (∀ d' ∈ acc, d'.metadata.schoolId = some A) →
        ∀ d' ∈ l.foldl (fun acc p =>
          let md := (metaOf p).getD emptyMetadata
          match md.fileName with
          | some fn =>
            if strTruthy fn then
              if acc.any (fun d => d.fileName = fn) then
                acc.map (fun d =>
                  if d.fileName = fn then { d with chunkCount := d.chunkCount + 1 } else d)
              else acc ++ [mkDocEntry fn md p]
            else acc
          | none => acc) acc, d'.metadata.schoolId = some A by
      intro hd2
      exact haux spts [] hscroll (by intro d' hd'; simp at hd') d hd2
    intro l
    induction l with
    | nil => intro acc _ hacc d' hd'; exact hacc d' hd'
    | cons p ps ih =>
      intro acc hl hacc d' hd'
      rw [List.foldl_cons] at hd'
      refine ih _ (fun q hq => hl q (List.mem_cons_of_mem p hq)) ?_ d' hd'
      have hpA : metaSchoolId p = some A := hl p (List.mem_cons_self p ps)
      intro d'' hd''
      cases hfn : ((metaOf p).getD emptyMetadata).fileName with
      | none => simp only [hfn] at hd''; exact hacc d'' hd''
      | some fn =>
        simp only [hfn] at hd''
        by_cases htr : strTruthy fn = true
        · rw [if_pos htr] at hd''
          by_cases hany : acc.any (fun d => d.fileName = fn) = true
          · rw [if_pos hany] at hd''
            obtain ⟨d0, hd0, rfl⟩ := List.mem_map.mp hd''
            by_cases heq : d0.fileName = fn
            · rw [if_pos heq]
              exact hacc d0 hd0
            · rw [if_neg heq]
              exact hacc d0 hd0
          · rw [if_neg hany] at hd''
            rcases List.mem_append.mp hd'' with h3 | h3
            · exact hacc d'' h3
            · have : d'' = mkDocEntry fn ((metaOf p).getD emptyMetadata) p := by
                simpa using h3
              subst this
              unfold mkDocEntry
              simp only
              exact metaSchoolId_getD p A hpA
        · rw [if_neg htr] at hd''
          exact hacc d'' hd''
  · unfold listDocuments qdrantScroll
    rw [filter_matches_filter_school pts _ A hA' rfl]

/-- A two-tenant store used to exercise the isolation theorem. -/
def c1Store : List Point :=
  [⟨1, [], some ⟨some "hello s1",
      some ⟨some "f.txt", some "s1", none, none, some 5, none, none⟩, some 0, some 1⟩⟩,
   ⟨2, [], some ⟨some "hello s2",
      some ⟨some "g.txt", some "s2", none, none, some 6, none, none⟩, some 0, some 1⟩⟩]

/-- A search world whose only collection is `s1_docs`, holding `c1Store`. -/
def c1World : SearchWorld :=
  ⟨some [], fun _ _ => 7, fun n => if n = "s1_docs" then some c1Store else none⟩

theorem c1_scoped_isolation_witness :
    ("s1" : String) ≠ "" ∧
    (∀ r ∈ searchKnowledge c1World ["docs"] 5 (some "s1") SearchStrategy.hybrid,
      r.metadata.schoolId = some "s1") ∧
    (∀ d ∈ (listDocuments c1Store (some "s1") 10 0).documents,
      d.metadata.schoolId = some "s1") ∧
    listDocuments (c1Store.filter (fun p => metaSchoolId p == some "s1"))
        (some "s1") 10 0 =
      listDocuments c1Store (some "s1") 10 0 := by
  have h := c1_scoped_isolation c1World ["docs"] 5 "s1" SearchStrategy.hybrid
    c1Store 10 0 (by decide)
  exact ⟨by decide, h.1, h.2.2.1, h.2.2.2⟩

/-! ## Fallback-deletion equivalence. -/

theorem filter_matchesFilter_nil (pts : List Point) :
    pts.filter (matchesFilter []) = pts :=
  List.filter_eq_self.mpr (fun _ _ => rfl)

theorem scrollAllGo_eq (pts : List Point) :
    ∀ (fuel offset : Nat), pts.length ≤ offset + 1000 * fuel →
      scrollAllGo pts fuel offset = pts.drop offset := by
  intro fuel
  induction fuel with
  | zero =>
    intro offset h
    rw [scrollAllGo]
    symm
    apply List.drop_eq_nil_of_le
    omega
  | succ fuel ih =>
    intro offset h
    rw [scrollAllGo]
    unfold qdrantScroll qdrantScrollNext
    rw [filter_matchesFilter_nil]
    by_cases hlt : offset + 1000 < pts.length
    · rw [if_pos hlt]
      show List.take 1000 (List.drop offset pts) ++ scrollAllGo pts fuel (offset + 1000) =
        List.drop offset pts
      rw [ih (offset + 1000) (by omega)]
      have hdd : pts.drop (offset + 1000) = (pts.drop offset).drop 1000 := by
        rw [List.drop_drop, Nat.add_comm]
      rw [hdd, List.take_append_drop]
    · rw [if_neg hlt]
      apply List.take_of_length_le
      rw [List.length_drop]
      omega

theorem scrollAll_eq (pts : List Point) : scrollAll pts = pts := by
  unfold scrollAll
  rw [scrollAllGo_eq pts (pts.length + 1) 0 (by omega), List.drop_zero]

theorem clientSideMatch_eq (f : String) (sid : Option String) (p : Point) :
    clientSideMatch f sid p = matchesFilter (deleteConds f sid) p := by
  rw [matchesFilter_deleteConds]
  unfold clientSideMatch
  cases hm : metaOf p with
  | none => cases sid <;> simp [metaFileName, metaSchoolId, hm]
  | some md => cases sid <;> simp [metaFileName, metaSchoolId, hm]

theorem batchesOf_flatten (n : Nat) (hn : 1 ≤ n) :
    ∀ (l : List Nat), (batchesOf n l).flatten = l
  | [] => by simp [batchesOf]
  | x :: xs => by
    rw [batchesOf, List.flatten_cons, batchesOf_flatten n hn (xs.drop (n - 1))]
    have hdrop : xs.drop (n - 1) = (x :: xs).drop n := by
      cases n with
      | zero => omega
      | succ m => simp
    rw [hdrop, List.take_append_drop]
  termination_by l => l.length
  decreasing_by
    simp only [List.length_cons, List.length_drop]
    omega

theorem foldl_deleteByIds (pts : List Point) (batches : List (List Nat)) :
    batches.foldl (fun st batch => qdrantDeleteByIds st batch) pts =
      pts.filter (fun p => ! batches.flatten.contains p.id) := by
  induction batches generalizing pts with
  | nil => simp [qdrantDeleteByIds]
  | cons b bs ih =>
    rw [List.foldl_cons, ih]
    unfold qdrantDeleteByIds
    rw [List.filter_filter]
    refine List.filter_congr ?_
    intro p _
    show (!(bs.flatten.contains p.id) && !(b.contains p.id)) =
      !((b :: bs).flatten.contains p.id)
    rw [List.flatten_cons]
    have hca : (b ++ bs.flatten).contains p.id =
        (b.contains p.id || bs.flatten.contains p.id) := by
      simp [List.contains_eq_any_beq, List.any_append]
    rw [hca, Bool.not_or, Bool.and_comm]

theorem mem_map_id_filter (pts : List Point) (q : Point → Bool)
    (hnd : (pts.map (·.id)).Nodup) (p : Point) (hp : p ∈ pts) :
    ((pts.filter q).map (·.id)).contains p.id = q p := by
  by_cases hq : q p = true
  · rw [hq]
    have hmem : p.id ∈ (pts.filter q).map (·.id) :=
      List.mem_map.mpr ⟨p, List.mem_filter.mpr ⟨hp, hq⟩, rfl⟩
    simpa using hmem
  · have hq' : q p = false := by revert hq; cases q p <;> simp
    rw [hq']
    cases hcc : ((pts.filter q).map (·.id)).contains p.id
    · rfl
    · exfalso
      have hmem : p.id ∈ (pts.filter q).map (·.id) := by simpa using hcc
      obtain ⟨p', hp', hid⟩ := List.mem_map.mp hmem
      obtain ⟨hp'mem, hq2⟩ := List.mem_filter.mp hp'
      have heq : p' = p := List.inj_on_of_nodup_map hnd hp'mem hp hid
      subst heq
      rw [hq'] at hq2
      exact Bool.false_ne_true hq2

/-- C3: when the store's point ids are distinct (as Qdrant guarantees for
an id-keyed store), the client-side fallback — scroll everything, match
fileName and schoolId client-side, delete the matching ids in batches of
100 — leaves exactly the store the primary filtered delete would leave:
zero chunks of that fileName/tenant remain and no other chunk is
deleted. -/
theorem c3_fallback_equivalence (pts : List Point) (f : String)
    (sid : Option String) (hnd : (pts.map (·.id)).Nodup) :
    deleteDocumentByFileNameClientSide pts f sid =
      deleteDocumentByFileName pts f sid := by
  unfold deleteDocumentByFileNameClientSide deleteDocumentByFileName qdrantDeleteByFilter
  rw [scrollAll_eq]
  by_cases hempty : (pts.filter (clientSideMatch f sid)).isEmpty = true
  · rw [if_pos hempty]
    have hall : ∀ p ∈ pts, clientSideMatch f sid p = false := by
      intro p hp
      have h1 : pts.filter (clientSideMatch f sid) = [] :=
        List.isEmpty_iff.mp hempty
      have h2 := List.filter_eq_nil_iff.mp h1 p hp
      revert h2
      cases clientSideMatch f sid p <;> simp
    symm
    apply List.filter_eq_self.mpr
    intro p hp
    rw [← clientSideMatch_eq, hall p hp]
    rfl
  · rw [if_neg hempty]
    rw [foldl_deleteByIds, batchesOf_flatten 100 (by omega)]
    refine List.filter_congr ?_
    intro p hp
    rw [mem_map_id_filter pts (clientSideMatch f sid) hnd p hp, clientSideMatch_eq]

theorem c3_fallback_equivalence_witness :
    ((c1Store.map (·.id)).Nodup) ∧
    deleteDocumentByFileNameClientSide c1Store "f.txt" (some "s1") =
      deleteDocumentByFileName c1Store "f.txt" (some "s1") ∧
    deleteDocumentByFileName c1Store "f.txt" (some "s1") =
      [⟨2, [], some ⟨some "hello s2",
        some ⟨some "g.txt", some "s2", none, none, some 6, none, none⟩,
        some 0, some 1⟩⟩] := by
  exact ⟨by decide, c3_fallback_equivalence c1Store "f.txt" (some "s1") (by decide),
    by decide⟩

/-! ## Chunk-size bound. -/

theorem overlapTrim_length_le (ot : List Char) :
    (overlapTrim ot).length ≤ ot.length := by
  unfold overlapTrim
  cases lastDotSpace ot with
  | none => exact Nat.le_refl _
  | some i =>
    show (if 0 < i then ot.drop (i + 2) else ot).length ≤ ot.length
    by_cases hi : 0 < i
    · rw [if_pos hi, List.length_drop]
      omega
    · rw [if_neg hi]

theorem overlapSeed_length_le (c : List Char) (ov : Nat) (hov : 1 ≤ ov) :
    (overlapSeed c ov).length ≤ ov := by
  unfold overlapSeed
  have hne : ¬ (ov = 0) := by omega
  rw [if_neg hne]
  refine le_trans (overlapTrim_length_le _) ?_
  rw [List.length_drop]
  omega

theorem chunkAppendSeg_len (c t : List Char) :
    (chunkAppendSeg c t).length =
      if c.isEmpty then t.length else c.length + 2 + t.length := by
  unfold chunkAppendSeg sepDS
  cases c with
  | nil => simp
  | cons a as =>
    simp [List.length_append]
    omega

theorem chunkFoldl_bound (o : ChunkOpts) (h1 : 1 ≤ o.overlap)
    (h2 : o.minChunkSize ≤ o.overlap) :
    ∀ (segs : List (List Char)) (st : List (List Char) × List Char),
      (∀ s ∈ segs, (jsTrim s).length + o.overlap + 2 ≤ o.maxChunkSize) →
      (∀ ch ∈ st.1, ch.length ≤ o.maxChunkSize + 1) →
      st.2.length ≤ o.maxChunkSize →
      (∀ ch ∈ (segs.foldl (chunkStep o) st).1, ch.length ≤ o.maxChunkSize + 1) ∧
        (segs.foldl (chunkStep o) st).2.length ≤ o.maxChunkSize := by
  intro segs
  induction segs with
  | nil => intro st _ ha hc; exact ⟨ha, hc⟩
  | cons s rest ih =>
    intro st hsegs ha hc
    rw [List.foldl_cons]
    have hseg : (jsTrim s).length + o.overlap + 2 ≤ o.maxChunkSize :=
      hsegs s (List.mem_cons_self s rest)
    refine ih (chunkStep o st s)
      (fun s' hs' => hsegs s' (List.mem_cons_of_mem s hs')) ?_ ?_
    all_goals
      by_cases hp : (chunkAppendSeg st.2 (jsTrim s)).length ≤ o.maxChunkSize
    · rw [chunkStep, if_pos hp]
      exact ha
    case neg =>
      have hne : st.2 = [] → False := by
        intro h0
        apply hp
        rw [h0]
        have he : chunkAppendSeg [] (jsTrim s) = jsTrim s := by
          simp [chunkAppendSeg]
        rw [he]
        omega
      have hniE : st.2.isEmpty = false := by
        cases hemp : st.2.isEmpty
        · rfl
        · exact absurd (List.isEmpty_iff.mp hemp) hne
      have hmin : o.minChunkSize ≤ st.2.length := by
        by_contra hlt
        push_neg at hlt
        apply hp
        rw [chunkAppendSeg_len, hniE]
        simp only [Bool.false_eq_true, if_false]
        omega
      have hcond : ¬ st.2.isEmpty = true ∧ o.minChunkSize ≤ st.2.length :=
        ⟨by rw [hniE]; simp, hmin⟩
      rw [chunkStep, if_neg hp, if_pos hcond]
      intro ch hch
      rcases List.mem_append.mp hch with h3 | h3
      · exact ha ch h3
      · have : ch = st.2 ++ ['.'] := by simpa using h3
        subst this
        rw [List.length_append]
        simp
        omega
    · rw [chunkStep, if_pos hp]
      exact hp
    case neg =>
      have hne : st.2 = [] → False := by
        intro h0
        apply hp
        rw [h0]
        have he : chunkAppendSeg [] (jsTrim s) = jsTrim s := by
          simp [chunkAppendSeg]
        rw [he]
        omega
      have hniE : st.2.isEmpty = false := by
        cases hemp : st.2.isEmpty
        · rfl
        · exact absurd (List.isEmpty_iff.mp hemp) hne
      have hmin : o.minChunkSize ≤ st.2.length := by
        by_contra hlt
        push_neg at hlt
        apply hp
        rw [chunkAppendSeg_len, hniE]
        simp only [Bool.false_eq_true, if_false]
        omega
      have hcond : ¬ st.2.isEmpty = true ∧ o.minChunkSize ≤ st.2.length :=
        ⟨by rw [hniE]; simp, hmin⟩
      rw [chunkStep, if_neg hp, if_pos hcond]
      rw [chunkAppendSeg_len]
      by_cases hsemp : (overlapSeed st.2 o.overlap).isEmpty = true
      · rw [hsemp]
        simp only [if_true]
        omega
      · have hsempF : (overlapSeed st.2 o.overlap).isEmpty = false := by
          revert hsemp; cases (overlapSeed st.2 o.overlap).isEmpty <;> simp
        rw [hsempF]
        simp only [Bool.false_eq_true, if_false]
        have := overlapSeed_length_le st.2 o.overlap h1
        omega

/-- C6 amended: every produced chunk stays within `maxChunkSize + 1` (the
trailing period) provided the overlap is positive, `minChunkSize` does not
exceed the overlap, and every segment's trimmed length fits in
`maxChunkSize` minus the overlap splice (`overlap + 2`).  Without the
segment proviso the bound fails by arbitrary amounts (see the
counterexample). -/
theorem c6_chunk_size_bound (text : List Char) (o : ChunkOpts)
    (h1 : 1 ≤ o.overlap) (h2 : o.minChunkSize ≤ o.overlap)
    (h3 : ∀ s ∈ segsOfCore o.preserveParagraphs text,
      (jsTrim s).length + o.overlap + 2 ≤ o.maxChunkSize) :
    ∀ ch ∈ splitTextIntoChunksOptimized text o,
      ch.length ≤ o.maxChunkSize + 1 := by
  intro ch hch
  unfold splitTextIntoChunksOptimized finalFlush at hch
  obtain ⟨hb1, hb2⟩ := chunkFoldl_bound o h1 h2 (segsOfCore o.preserveParagraphs text)
    ([], []) h3 (by intro ch' h'; simp at h') (by simp)
  set st := (segsOfCore o.preserveParagraphs text).foldl (chunkStep o) ([], []) with hst
  by_cases hfin : ¬ st.2.isEmpty = true ∧ o.minChunkSize ≤ st.2.length
  · rw [if_pos hfin] at hch
    rcases List.mem_append.mp hch with h4 | h4
    · exact hb1 ch h4
    · have hch2 : ch = st.2 ++ ['.'] := by simpa using h4
      subst hch2
      rw [List.length_append]
      simp only [List.length_singleton]
      omega
  · rw [if_neg hfin] at hch
    exact hb1 ch hch

/-- C6 fails as stated: a single unpunctuated run of 30 characters, with
`maxChunkSize = 10`, `overlap = 3`, `minChunkSize = 2`, is emitted as one
chunk of 31 characters — exceeding `maxChunkSize` by 21, more than the
overlap splice, the trailing period, and even another full
`maxChunkSize`; no small constant tolerance bounds the excess. -/
theorem c6_chunk_size_counterexample :
    splitTextIntoChunksOptimized (List.replicate 30 'a') ⟨10, 3, 2, false⟩ =
      [List.replicate 30 'a' ++ ['.']] ∧
    (List.replicate 30 'a' ++ ['.']).length = 31 ∧
    10 + 3 + 1 + 10 < 31 := by
  decide

theorem c6_chunk_size_bound_witness :
    (1 ≤ 200) ∧ (2 ≤ 200) ∧
    (∀ s ∈ segsOfCore false ("Short one. Short two.".data),
      (jsTrim s).length + 200 + 2 ≤ 2000) ∧
    (∀ ch ∈ splitTextIntoChunksOptimized ("Short one. Short two.".data)
        ⟨2000, 200, 2, false⟩, ch.length ≤ 2001) ∧
    splitTextIntoChunksOptimized ("Short one. Short two.".data)
        ⟨2000, 200, 2, false⟩ = ["Short one. Short two.".data] := by
  refine ⟨by decide, by decide, by decide, ?_, by decide⟩
  exact c6_chunk_size_bound ("Short one. Short two.".data) ⟨2000, 200, 2, false⟩
    (by decide) (by decide) (by decide)

/-! ## Chunk coverage / reconstruction. -/

/-- The running join the accumulation loop builds when nothing flushes:
each segment is trimmed and appended after a `'. '` separator. -/
def normJoinFrom (c : List Char) (segs : List (List Char)) : List Char :=
  segs.foldl (fun acc s => chunkAppendSeg acc (jsTrim s)) c

/-- The `'. '`-normalised join of all trimmed segments. -/
def normJoin (segs : List (List Char)) : List Char := normJoinFrom [] segs

theorem chunkAppendSeg_len_ge (c t : List Char) :
    c.length ≤ (chunkAppendSeg c t).length := by
  rw [chunkAppendSeg_len]
  by_cases h : c.isEmpty = true
  · have hc0 : c.length = 0 := by rw [List.isEmpty_iff.mp h]; rfl
    rw [h]
    simp [hc0]
  · have hF : c.isEmpty = false := by revert h; cases c.isEmpty <;> simp
    rw [hF]
    simp only [Bool.false_eq_true, if_false]
    omega

theorem normJoinFrom_len_mono (segs : List (List Char)) :
    ∀ c : List Char, c.length ≤ (normJoinFrom c segs).length := by
  induction segs with
  | nil => intro c; exact Nat.le_refl _
  | cons s rest ih =>
    intro c
    rw [normJoinFrom, List.foldl_cons]
    exact le_trans (chunkAppendSeg_len_ge c (jsTrim s)) (ih _)

theorem chunkFoldl_small (o : ChunkOpts) :
    ∀ (segs : List (List Char)) (chunks : List (List Char)) (c : List Char),
      (normJoinFrom c segs).length ≤ o.maxChunkSize →
      segs.foldl (chunkStep o) (chunks, c) = (chunks, normJoinFrom c segs) := by
  intro segs
  induction segs with
  | nil => intro chunks c _; rfl
  | cons s rest ih =>
    intro chunks c h
    rw [List.foldl_cons]
    have he : normJoinFrom c (s :: rest) =
        normJoinFrom (chunkAppendSeg c (jsTrim s)) rest := rfl
    have hle : (chunkAppendSeg c (jsTrim s)).length ≤ o.maxChunkSize := by
      refine le_trans ?_ h
      rw [he]
      exact normJoinFrom_len_mono rest _
    have hstep : chunkStep o (chunks, c) s = (chunks, chunkAppendSeg c (jsTrim s)) := by
      rw [chunkStep, if_pos hle]
    rw [hstep]
    exact ih chunks _ (by rw [← he]; exact h)

/-- C7 amended: lossless reconstruction fails (see the counterexample —
sentence-terminal punctuation and surrounding whitespace are normalised to
`'. '` and a trailing period is appended), and reconstruction holds only
up to that normalisation: whenever the normalised join of the trimmed
segments is nonempty and its length lies between `minChunkSize` and
`maxChunkSize`, the chunker returns exactly one chunk, the normalised
join plus a trailing period — no segment characters are lost. -/
theorem c7_single_chunk (text : List Char) (o : ChunkOpts)
    (h0 : normJoin (segsOfCore o.preserveParagraphs text) ≠ [])
    (hmin : o.minChunkSize ≤ (normJoin (segsOfCore o.preserveParagraphs text)).length)
    (hmax : (normJoin (segsOfCore o.preserveParagraphs text)).length ≤ o.maxChunkSize) :
    splitTextIntoChunksOptimized text o =
      [normJoin (segsOfCore o.preserveParagraphs text) ++ ['.']] := by
  unfold splitTextIntoChunksOptimized
  rw [chunkFoldl_small o (segsOfCore o.preserveParagraphs text) [] [] hmax]
  unfold finalFlush
  have hcond : ¬ (normJoin (segsOfCore o.preserveParagraphs text)).isEmpty = true ∧
      o.minChunkSize ≤ (normJoin (segsOfCore o.preserveParagraphs text)).length :=
    ⟨fun h => h0 (List.isEmpty_iff.mp h), hmin⟩
  show (if ¬ (normJoin (segsOfCore o.preserveParagraphs text)).isEmpty = true ∧
        o.minChunkSize ≤ (normJoin (segsOfCore o.preserveParagraphs text)).length then
      ([] : List (List Char)) ++ [normJoin (segsOfCore o.preserveParagraphs text) ++ ['.']]
    else []) = [normJoin (segsOfCore o.preserveParagraphs text) ++ ['.']]
  rw [if_pos hcond]
  simp

set_option maxRecDepth 4096 in
/-- C7 fails as stated: with the source's default sizes (and paragraph
preservation off, as the upload path sets it for non-PDF files), the
131-character input `'a'*120 ++ "!" ++ 'b'*10` is longer than
`minChunkSize = 100`, yet the single chunk produced is
`'a'*120 ++ ". " ++ 'b'*10 ++ "."` — the `!` and the adjacency are
rewritten, so concatenating the chunks (there is only one, seeded with no
overlap) does not reconstruct the input. -/
theorem c7_lossless_counterexample :
    splitTextIntoChunksOptimized
        (List.replicate 120 'a' ++ '!' :: List.replicate 10 'b')
        ⟨2000, 200, 100, false⟩ =
      [List.replicate 120 'a' ++ '.' :: ' ' :: (List.replicate 10 'b' ++ ['.'])] ∧
    List.replicate 120 'a' ++ '.' :: ' ' :: (List.replicate 10 'b' ++ ['.']) ≠
      List.replicate 120 'a' ++ '!' :: List.replicate 10 'b' := by
  decide

theorem c7_single_chunk_witness :
    normJoin (segsOfCore false ("ab. cd.".data)) ≠ [] ∧
    1 ≤ (normJoin (segsOfCore false ("ab. cd.".data))).length ∧
    (normJoin (segsOfCore false ("ab. cd.".data))).length ≤ 2000 ∧
    splitTextIntoChunksOptimized ("ab. cd.".data) ⟨2000, 200, 1, false⟩ =
      ["ab. cd.".data] := by
  refine ⟨by decide, by decide, by decide, ?_⟩
  have h := c7_single_chunk ("ab. cd.".data) ⟨2000, 200, 1, false⟩
    (by decide) (by decide) (by decide)
  rw [h]
  decide
